import Mathlib

/-!
Shallow embedding of `aioredis/pool.py` (class `RedisPool`).

A connection is modelled by its identity plus the attributes the pool
reads: its current database index, whether it is closed, and whether it
is mid-transaction.  The pool state mirrors `RedisPool.__init__`:
`_pool` (a `collections.deque` with `maxlen = maxsize`), `_used` (a set,
modelled as a duplicate-free list of connection ids), `_acquiring`
(in-flight creations), `_db`, `_minsize`, and the deque's `maxlen`
(`maxsize`).  `nextId` numbers the connections the factory produces.

Python's `deque(maxlen=m).append` keeps the last `m` elements and
silently discards the overflow from the left; `dequeAppend` returns
both the resulting deque and the discarded connections.

The coroutine bodies become state-passing functions; the `while` loop of
`_fill_free` takes explicit fuel (the loop need not terminate — see the
`maxsize = 0` theorems below).  `release` and `_wakeup` additionally
return the ordered list of externally visible actions they perform
(removal from `_used`, `conn.close()`, append to `_pool`, scheduling of
the `_wakeup` task via `asyncio.async`, `cond.notify()`,
`conn.wait_closed()`), so that statements about what happens before the
call returns versus inside the scheduled task are expressible.
-/

/-- Connection as seen by the pool: identity, current db index,
closed flag, in-transaction flag. -/
structure Conn where
  id : Nat
  db : Nat
  closed : Bool
  inTx : Bool
deriving DecidableEq, Repr

/-- State of a `RedisPool`: the free deque `_pool` (head = left end, the
end `popleft` takes from), the `_used` set as a list of connection ids,
the `_acquiring` counter, `_db`, `_minsize`, and the deque capacity
`maxsize` (`_pool.maxlen`).  `nextId` is the id the factory gives the
next created connection. -/
structure PoolState where
  pool : List Conn
  used : List Nat
  acquiring : Nat
  db : Nat
  minsize : Nat
  maxsize : Nat
  nextId : Nat
deriving DecidableEq, Repr

/-- Property `freesize`: `len(self._pool)`. -/
def freesize (s : PoolState) : Nat := s.pool.length

/-- Property `size`: `self.freesize + len(self._used) + self._acquiring`. -/
def poolSize (s : PoolState) : Nat := freesize s + s.used.length + s.acquiring

/-- Ids of the connections currently in the free deque. -/
def poolIds (s : PoolState) : List Nat := s.pool.map Conn.id

/-- Python `deque(maxlen).append`: the result keeps the last `maxlen`
elements of `q ++ [c]`; the first components dropped from the left are
returned second (they are discarded silently by the deque, `close` is
not called on them). -/
def dequeAppend (maxlen : Nat) (q : List Conn) (c : Conn) : List Conn × List Conn :=
  ((q ++ [c]).drop ((q ++ [c]).length - maxlen),
   (q ++ [c]).take ((q ++ [c]).length - maxlen))

/-- One successful iteration body of `_fill_free`'s loop (and of its
top-up step): `self._acquiring += 1`, create the connection (db =
`self._db`, open, not in a transaction), `self._pool.append(conn)`,
and `finally: self._acquiring -= 1`. -/
def createAppend (s : PoolState) : PoolState :=
  { s with
    pool := (dequeAppend s.maxsize s.pool ⟨s.nextId, s.db, false, false⟩).1,
    nextId := s.nextId + 1,
    acquiring := s.acquiring + 1 - 1 }

/-- Connections silently discarded by the deque during `createAppend`. -/
def createDropped (s : PoolState) : List Conn :=
  (dequeAppend s.maxsize s.pool ⟨s.nextId, s.db, false, false⟩).2

/-- Outcome of `_fill_free`: normal return, factory exception
propagated, or fuel exhausted (the loop is still running). -/
inductive FillStatus where
  | ok
  | fail
  | noFuel
deriving DecidableEq, Repr

/-- Result of `_fill_free`: status, resulting pool state, and the
connections silently discarded by the deque on overflowing appends. -/
structure FillRes where
  status : FillStatus
  state : PoolState
  dropped : List Conn
deriving Repr

/-- The `while self.size < self.minsize` loop of `_fill_free`.  `ok`
tells, keyed by the id the factory would assign, whether creation
succeeds; on failure the reserved `_acquiring` slot is released by the
`finally` and the exception propagates (`FillStatus.fail`). -/
def fillLoop (ok : Nat → Bool) : Nat → PoolState → FillRes
  | 0, s =>
    if poolSize s < s.minsize then ⟨FillStatus.noFuel, s, []⟩
    else ⟨FillStatus.ok, s, []⟩
  | fuel + 1, s =>
    if poolSize s < s.minsize then
      if ok s.nextId then
        ⟨(fillLoop ok fuel (createAppend s)).status,
         (fillLoop ok fuel (createAppend s)).state,
         createDropped s ++ (fillLoop ok fuel (createAppend s)).dropped⟩
      else ⟨FillStatus.fail, { s with acquiring := s.acquiring + 1 - 1 }, []⟩
    else ⟨FillStatus.ok, s, []⟩

/-- Second phase of `_fill_free`, applied to the loop's result when it
returned normally: `if self.freesize: return`, then the top-up-by-one
step guarded by `override_min and self.size < self.maxsize` (one more
reserve / create / append / release-slot round). -/
def topUp (ok : Nat → Bool) (overrideMin : Bool) (r : FillRes) : FillRes :=
  match r.status with
  | FillStatus.fail => r
  | FillStatus.noFuel => r
  | FillStatus.ok =>
    if freesize r.state ≠ 0 then r
    else if overrideMin ∧ poolSize r.state < r.state.maxsize then
      if ok r.state.nextId then
        ⟨FillStatus.ok, createAppend r.state, r.dropped ++ createDropped r.state⟩
      else
        ⟨FillStatus.fail,
          { r.state with acquiring := r.state.acquiring + 1 - 1 }, r.dropped⟩
    else r

/-- Full `_fill_free(override_min)`: the fill-to-minimum loop, then the
freesize check and top-up-by-one step. -/
def fillFree (ok : Nat → Bool) (fuel : Nat) (overrideMin : Bool) (s : PoolState) : FillRes :=
  topUp ok overrideMin (fillLoop ok fuel s)

/-- Externally visible primitive actions of `release` and `_wakeup`,
in the order the code performs them. -/
inductive Act where
  | removeUsed (id : Nat)
  | closeConn (id : Nat)
  | appendFree (id : Nat)
  | scheduleWakeup (arg : Option Nat)
  | notifyWaiter
  | waitClosed (id : Nat)
deriving DecidableEq, Repr

/-- Body of `RedisPool.release(conn)`.  The released connection is given
by its identity `id` and its current attributes `dbc`, `closedc`,
`inTx` (the caller may have mutated it while leased).  `assert conn in
self._used` failing is `none` (AssertionError raised, nothing mutated).
Otherwise the connection is removed from `_used`; if it is not closed it
is either appended back to the free deque (db matches and
`self.maxsize and self.freesize < self.maxsize`) or closed; finally
`asyncio.async(self._wakeup(), loop=...)` schedules the wakeup task
with no argument.  Returns the new state and the action list. -/
def releaseRun (s : PoolState) (id dbc : Nat) (closedc inTx : Bool) :
    Option (PoolState × List Act) :=
  if id ∈ s.used then
    let s1 : PoolState := { s with used := s.used.erase id }
    let step : PoolState × List Act :=
      if closedc = false then
        if inTx then (s1, [Act.closeConn id])
        else if dbc = s.db then
          if s.maxsize ≠ 0 ∧ freesize s1 < s.maxsize then
            ({ s1 with pool := (dequeAppend s.maxsize s1.pool ⟨id, dbc, false, false⟩).1 },
             [Act.appendFree id])
          else (s1, [Act.closeConn id])
        else (s1, [Act.closeConn id])
      else (s1, [])
    some (step.1, Act.removeUsed id :: step.2 ++ [Act.scheduleWakeup none])
  else none

/-- Body of `RedisPool._wakeup(closing_conn=None)`: notify one waiter
under the condition, then, only when a closing connection was passed,
await its `wait_closed()`. -/
def wakeupRun (arg : Option Nat) : List Act :=
  Act.notifyWaiter ::
    (match arg with
     | some i => [Act.waitClosed i]
     | none => [])

/-- Outcome of one pass of `acquire`'s loop body in a quiescent pool:
the refill failed, fuel ran out, a connection was popped and leased,
one of the two `assert`s fired, or the pool is empty and the task
blocks in `cond.wait()`. -/
inductive AcqStatus where
  | acquired
  | blocked
  | fillFailed
  | noFuel
  | assertFailed
deriving DecidableEq, Repr

/-- Result of `acquire`. -/
structure AcqRes where
  status : AcqStatus
  conn : Option Conn
  state : PoolState
deriving Repr

/-- The part of `acquire`'s loop body after `_fill_free`: if
`self.freesize` pop the front connection, assert it is not closed and
not in `_used`, add it to `_used` and return it; otherwise the task
waits on the condition. -/
def popLease (r : FillRes) : AcqRes :=
  match r.status with
  | FillStatus.fail => ⟨AcqStatus.fillFailed, none, r.state⟩
  | FillStatus.noFuel => ⟨AcqStatus.noFuel, none, r.state⟩
  | FillStatus.ok =>
    match r.state.pool with
    | [] => ⟨AcqStatus.blocked, none, r.state⟩
    | c :: rest =>
      if c.closed = true ∨ c.id ∈ r.state.used then
        ⟨AcqStatus.assertFailed, none, { r.state with pool := rest }⟩
      else
        ⟨AcqStatus.acquired, some c,
          { r.state with pool := rest, used := c.id :: r.state.used }⟩

/-- Body of `RedisPool.acquire()` run to its first outcome in a
quiescent pool: `_fill_free(override_min=True)`, then pop-and-lease or
block (with no concurrent releaser there is nothing to wake a blocked
waiter, so one pass decides the outcome). -/
def acquireRun (ok : Nat → Bool) (fuel : Nat) (s : PoolState) : AcqRes :=
  popLease (fillFree ok fuel true s)

/-- The `for i in range(self.freesize): yield from self._pool[i].select(db)`
loop of `RedisPool.select`, acting on the free list from index `i`.
`ok` tells, by position, whether that connection's own `select`
succeeds; a success switches the connection's db in place, the first
failure raises, leaving that connection and the rest untouched.  The
boolean is `true` when the loop ran to completion. -/
def switchFree (dbNew : Nat) (ok : Nat → Bool) : Nat → List Conn → Bool × List Conn
  | _, [] => (true, [])
  | i, c :: rest =>
    if ok i then
      let r := switchFree dbNew ok (i + 1) rest
      (r.1, { c with db := dbNew } :: r.2)
    else (false, c :: rest)

/-- Body of `RedisPool.select(db)`: switch every free connection in
place; the `for ... else` clause assigns `self._db = db` exactly when
the loop finished without an exception.  Returns whether the call
succeeded and the resulting state. -/
def selectRun (s : PoolState) (dbNew : Nat) (ok : Nat → Bool) : Bool × PoolState :=
  let r := switchFree dbNew ok 0 s.pool
  if r.1 then (true, { s with pool := r.2, db := dbNew })
  else (false, { s with pool := r.2 })

/-- Body of `RedisPool.clear()`: pop every free connection, close it,
and wait for the closes; the free deque ends empty. -/
def clearRun (s : PoolState) : PoolState :=
  { s with pool := [] }

/-- State of a freshly constructed `RedisPool` (before `create_pool`'s
initial `_fill_free(override_min=False)`). -/
def initState (db minsize maxsize : Nat) : PoolState :=
  { pool := [], used := [], acquiring := 0, db := db,
    minsize := minsize, maxsize := maxsize, nextId := 0 }

/-- One pool operation of a quiescent history: the initial fill of
`create_pool`, an `acquire`, a `release` of a connection with the given
identity and current attributes, a `select`, or a `clear`.  The
creation/switch oracles and the loop fuel are part of the operation. -/
inductive Op where
  | initFill (fuel : Nat) (ok : Nat → Bool)
  | acquire (fuel : Nat) (ok : Nat → Bool)
  | release (id dbc : Nat) (closedc inTx : Bool)
  | select (dbNew : Nat) (ok : Nat → Bool)
  | clear

/-- Run one operation; the second component is the connection handed
out when the operation was an `acquire` that returned one.  A release
whose assertion fires leaves the state unchanged (the exception
propagates before any mutation). -/
def runOp (s : PoolState) (op : Op) : PoolState × Option Conn :=
  match op with
  | Op.initFill fuel ok => ((fillFree ok fuel false s).state, none)
  | Op.acquire fuel ok =>
    let r := acquireRun ok fuel s
    (r.state, r.conn)
  | Op.release id dbc closedc inTx =>
    match releaseRun s id dbc closedc inTx with
    | some (s', _) => (s', none)
    | none => (s, none)
  | Op.select dbNew ok => ((selectRun s dbNew ok).2, none)
  | Op.clear => (clearRun s, none)

/-- State reached after a sequence of operations. -/
def reach (s : PoolState) : List Op → PoolState
  | [] => s
  | op :: rest => reach (runOp s op).1 rest

/-- All connections handed out by acquires along a run. -/
def acquiredConns (s : PoolState) : List Op → List Conn
  | [] => []
  | op :: rest =>
    (match (runOp s op).2 with
     | some c => [c]
     | none => []) ++ acquiredConns (runOp s op).1 rest

/-- Structural pool invariant: free ids and `_used` are duplicate-free
and disjoint, free connections are open, and every id the pool holds
was produced by the factory (is below `nextId`). -/
def PoolInv (s : PoolState) : Prop :=
  (poolIds s).Nodup ∧
  s.used.Nodup ∧
  (∀ c ∈ s.pool, c.id ∉ s.used) ∧
  (∀ c ∈ s.pool, c.closed = false) ∧
  (∀ c ∈ s.pool, c.id < s.nextId) ∧
  (∀ i ∈ s.used, i < s.nextId)

/-- Every free connection sits on db `d` and the pool targets db `d`. -/
def GoodDb (d : Nat) (s : PoolState) : Prop :=
  s.db = d ∧ ∀ c ∈ s.pool, c.db = d

/-- Operations other than `select` (which is the only one that changes
the pool's db index). -/
def Op.notSelect : Op → Prop
  | Op.select _ _ => False
  | _ => True

/-- The `_fill_free` loop never returns, whatever fuel it is given. -/
def fillNeverCompletes (ok : Nat → Bool) (s : PoolState) : Prop :=
  ∀ fuel, (fillLoop ok fuel s).status = FillStatus.noFuel

theorem dequeAppend_fst_of_lt {m : Nat} {q : List Conn} {c : Conn}
    (h : q.length < m) : (dequeAppend m q c).1 = q ++ [c] := by
  have hz : q.length + 1 - m = 0 := by omega
  simp [dequeAppend, hz]

theorem dequeAppend_snd_of_lt {m : Nat} {q : List Conn} {c : Conn}
    (h : q.length < m) : (dequeAppend m q c).2 = [] := by
  have hz : q.length + 1 - m = 0 := by omega
  simp [dequeAppend, hz]

theorem dequeAppend_fst_sublist (m : Nat) (q : List Conn) (c : Conn) :
    List.Sublist (dequeAppend m q c).1 (q ++ [c]) :=
  List.drop_sublist _ _

theorem mem_dequeAppend_fst {m : Nat} {q : List Conn} {c : Conn} {x : Conn}
    (h : x ∈ (dequeAppend m q c).1) : x ∈ q ++ [c] :=
  (dequeAppend_fst_sublist m q c).subset h

theorem dequeAppend_fst_length (m : Nat) (q : List Conn) (c : Conn) :
    ((dequeAppend m q c).1).length = min (q.length + 1) m := by
  simp [dequeAppend]
  omega

theorem createAppend_used (s : PoolState) : (createAppend s).used = s.used := rfl

theorem createAppend_acquiring (s : PoolState) :
    (createAppend s).acquiring = s.acquiring := by
  simp [createAppend]

theorem createAppend_db (s : PoolState) : (createAppend s).db = s.db := rfl

theorem createAppend_minsize (s : PoolState) : (createAppend s).minsize = s.minsize := rfl

theorem createAppend_maxsize (s : PoolState) : (createAppend s).maxsize = s.maxsize := rfl

theorem createAppend_nextId (s : PoolState) : (createAppend s).nextId = s.nextId + 1 := rfl

theorem freesize_createAppend_of_lt {s : PoolState} (h : freesize s < s.maxsize) :
    freesize (createAppend s) = freesize s + 1 := by
  simp [createAppend, freesize, dequeAppend_fst_of_lt h]

theorem poolSize_createAppend_of_lt {s : PoolState} (h : freesize s < s.maxsize) :
    poolSize (createAppend s) = poolSize s + 1 := by
  simp [poolSize, freesize_createAppend_of_lt h, createAppend_used,
    createAppend_acquiring]
  omega

theorem createDropped_of_lt {s : PoolState} (h : freesize s < s.maxsize) :
    createDropped s = [] :=
  dequeAppend_snd_of_lt h

theorem freesize_createAppend_le (s : PoolState) :
    freesize (createAppend s) ≤ freesize s + 1 := by
  simp [createAppend, freesize, dequeAppend_fst_length]

theorem mem_createAppend_pool {s : PoolState} {x : Conn}
    (hx : x ∈ (createAppend s).pool) :
    x ∈ s.pool ∨ x = ⟨s.nextId, s.db, false, false⟩ := by
  have := (dequeAppend_fst_sublist s.maxsize s.pool ⟨s.nextId, s.db, false, false⟩).subset hx
  simpa using this

theorem poolInv_createAppend {s : PoolState} (h : PoolInv s) : PoolInv (createAppend s) := by
  obtain ⟨h1, h2, h3, h4, h5, h6⟩ := h
  have hbig : ((s.pool ++ [(⟨s.nextId, s.db, false, false⟩ : Conn)]).map Conn.id).Nodup := by
    rw [List.map_append, List.nodup_append]
    refine ⟨h1, List.nodup_singleton _, ?_⟩
    intro a ha hb
    simp at hb
    subst hb
    obtain ⟨x, hx, hid⟩ := List.mem_map.mp ha
    exact absurd hid (Nat.ne_of_lt (h5 x hx))
  refine ⟨?_, h2, ?_, ?_, ?_, ?_⟩
  · have hsub : List.Sublist ((createAppend s).pool.map Conn.id)
        ((s.pool ++ [(⟨s.nextId, s.db, false, false⟩ : Conn)]).map Conn.id) :=
      (dequeAppend_fst_sublist _ _ _).map _
    exact hsub.nodup hbig
  · intro c hc
    rcases mem_createAppend_pool hc with hc' | hc'
    · exact h3 c hc'
    · subst hc'
      simpa [createAppend] using fun hmem => absurd rfl (Nat.ne_of_lt (h6 _ hmem))
  · intro c hc
    rcases mem_createAppend_pool hc with hc' | hc'
    · exact h4 c hc'
    · subst hc'; rfl
  · intro c hc
    rw [createAppend_nextId]
    rcases mem_createAppend_pool hc with hc' | hc'
    · exact Nat.lt_succ_of_lt (h5 c hc')
    · subst hc'; exact Nat.lt_succ_self _
  · intro i hi
    rw [createAppend_nextId]
    exact Nat.lt_succ_of_lt (h6 i (by simpa [createAppend] using hi))

theorem fillLoop_frame (ok : Nat → Bool) (fuel : Nat) :
    ∀ s : PoolState,
      (fillLoop ok fuel s).state.acquiring = s.acquiring ∧
      (fillLoop ok fuel s).state.minsize = s.minsize ∧
      (fillLoop ok fuel s).state.maxsize = s.maxsize ∧
      (fillLoop ok fuel s).state.db = s.db ∧
      (fillLoop ok fuel s).state.used = s.used := by
  induction fuel with
  | zero =>
    intro s
    unfold fillLoop
    split <;> exact ⟨rfl, rfl, rfl, rfl, rfl⟩
  | succ n ih =>
    intro s
    unfold fillLoop
    split
    · split
      · obtain ⟨hA, hm, hM, hd, hu⟩ := ih (createAppend s)
        exact ⟨by rw [hA, createAppend_acquiring], by rw [hm]; rfl,
               by rw [hM]; rfl, by rw [hd]; rfl, by rw [hu]; rfl⟩
      · exact ⟨by simp, rfl, rfl, rfl, rfl⟩
    · exact ⟨rfl, rfl, rfl, rfl, rfl⟩

theorem fillLoop_inv (ok : Nat → Bool) (fuel : Nat) :
    ∀ s : PoolState, PoolInv s → PoolInv (fillLoop ok fuel s).state := by
  induction fuel with
  | zero =>
    intro s h
    unfold fillLoop
    split <;> exact h
  | succ n ih =>
    intro s h
    unfold fillLoop
    split
    · split
      · exact ih (createAppend s) (poolInv_createAppend h)
      · obtain ⟨h1, h2, h3, h4, h5, h6⟩ := h
        exact ⟨h1, h2, h3, h4, h5, h6⟩
    · exact h

theorem fillLoop_zero (ok : Nat → Bool) (s : PoolState) :
    fillLoop ok 0 s =
      if poolSize s < s.minsize then ⟨FillStatus.noFuel, s, []⟩
      else ⟨FillStatus.ok, s, []⟩ := rfl

theorem fillLoop_succ (ok : Nat → Bool) (n : Nat) (s : PoolState) :
    fillLoop ok (n + 1) s =
      if poolSize s < s.minsize then
        if ok s.nextId then
          ⟨(fillLoop ok n (createAppend s)).status,
           (fillLoop ok n (createAppend s)).state,
           createDropped s ++ (fillLoop ok n (createAppend s)).dropped⟩
        else ⟨FillStatus.fail, { s with acquiring := s.acquiring + 1 - 1 }, []⟩
      else ⟨FillStatus.ok, s, []⟩ := rfl

theorem fillLoop_ok_min (ok : Nat → Bool) (fuel : Nat) :
    ∀ s : PoolState, (fillLoop ok fuel s).status = FillStatus.ok →
      s.minsize ≤ poolSize (fillLoop ok fuel s).state := by
  induction fuel with
  | zero =>
    intro s h
    rw [fillLoop_zero] at h ⊢
    by_cases hc : poolSize s < s.minsize
    · rw [if_pos hc] at h
      exact absurd h (by simp)
    · rw [if_neg hc]
      simp only []
      omega
  | succ n ih =>
    intro s h
    rw [fillLoop_succ] at h ⊢
    by_cases hc : poolSize s < s.minsize
    · rw [if_pos hc] at h ⊢
      by_cases hok : ok s.nextId = true
      · rw [if_pos hok] at h ⊢
        simp only [] at h ⊢
        have := ih (createAppend s) h
        simpa [createAppend_minsize] using this
      · rw [if_neg hok] at h
        exact absurd h (by simp)
    · rw [if_neg hc]
      simp only []
      omega

theorem fillLoop_goodDb (ok : Nat → Bool) (fuel : Nat) :
    ∀ s : PoolState, (∀ c ∈ s.pool, c.db = s.db) →
      ∀ c ∈ (fillLoop ok fuel s).state.pool, c.db = s.db := by
  induction fuel with
  | zero =>
    intro s h
    unfold fillLoop
    split <;> exact h
  | succ n ih =>
    intro s h
    unfold fillLoop
    split
    · split
      · intro c hc
        have hgood : ∀ x ∈ (createAppend s).pool, x.db = (createAppend s).db := by
          intro x hx
          rcases mem_createAppend_pool hx with hx' | hx'
          · rw [createAppend_db]; exact h x hx'
          · subst hx'; rw [createAppend_db]
        have := ih (createAppend s) hgood c (by simpa using hc)
        rwa [createAppend_db] at this
      · exact h
    · exact h

theorem fillLoop_bounded (ok : Nat → Bool) (fuel : Nat) :
    ∀ s : PoolState, s.minsize ≤ s.maxsize →
      freesize s + s.used.length ≤ s.maxsize →
      freesize (fillLoop ok fuel s).state + (fillLoop ok fuel s).state.used.length ≤ s.maxsize := by
  induction fuel with
  | zero =>
    intro s hmm hb
    unfold fillLoop
    split <;> exact hb
  | succ n ih =>
    intro s hmm hb
    unfold fillLoop
    split
    · split
      · rename_i hlt hok
        have hfs : freesize s < s.maxsize := by
          unfold poolSize at hlt
          omega
        have hb' : freesize (createAppend s) + (createAppend s).used.length ≤ (createAppend s).maxsize := by
          rw [freesize_createAppend_of_lt hfs, createAppend_used, createAppend_maxsize]
          simp only [poolSize, freesize] at hlt hfs hb ⊢
          omega
        have := ih (createAppend s)
          (by rw [createAppend_minsize, createAppend_maxsize]; exact hmm) hb'
        rw [createAppend_maxsize] at this
        simpa using this
      · exact hb
    · exact hb

theorem fillLoop_dropped_nil (ok : Nat → Bool) (fuel : Nat) :
    ∀ s : PoolState, s.minsize ≤ s.maxsize →
      (fillLoop ok fuel s).dropped = [] := by
  induction fuel with
  | zero =>
    intro s hmm
    unfold fillLoop
    split <;> rfl
  | succ n ih =>
    intro s hmm
    unfold fillLoop
    split
    · split
      · rename_i hlt hok
        have hfs : freesize s < s.maxsize := by
          unfold poolSize at hlt
          omega
        have h1 : createDropped s = [] := createDropped_of_lt hfs
        have h2 : (fillLoop ok n (createAppend s)).dropped = [] :=
          ih (createAppend s) (by rw [createAppend_minsize, createAppend_maxsize]; exact hmm)
        simp [h1, h2]
      · rfl
    · rfl

theorem topUp_acquiring (ok : Nat → Bool) (ov : Bool) (r : FillRes) :
    (topUp ok ov r).state.acquiring = r.state.acquiring := by
  obtain ⟨st, t, d⟩ := r
  cases st <;> simp only [topUp]
  case ok =>
    split
    · rfl
    · split
      · split
        · simp [createAppend_acquiring]
        · simp
      · rfl

theorem topUp_frame (ok : Nat → Bool) (ov : Bool) (r : FillRes) :
    (topUp ok ov r).state.minsize = r.state.minsize ∧
    (topUp ok ov r).state.maxsize = r.state.maxsize ∧
    (topUp ok ov r).state.db = r.state.db ∧
    (topUp ok ov r).state.used = r.state.used := by
  obtain ⟨st, t, d⟩ := r
  cases st
  case ok =>
    simp only [topUp]
    split
    · exact ⟨rfl, rfl, rfl, rfl⟩
    · split
      · split
        · exact ⟨rfl, rfl, rfl, rfl⟩
        · exact ⟨rfl, rfl, rfl, rfl⟩
      · exact ⟨rfl, rfl, rfl, rfl⟩
  case fail => exact ⟨rfl, rfl, rfl, rfl⟩
  case noFuel => exact ⟨rfl, rfl, rfl, rfl⟩

theorem topUp_inv (ok : Nat → Bool) (ov : Bool) (r : FillRes)
    (h : PoolInv r.state) : PoolInv (topUp ok ov r).state := by
  obtain ⟨st, t, d⟩ := r
  cases st <;> simp only [topUp]
  case ok =>
    split
    · exact h
    · split
      · split
        · exact poolInv_createAppend h
        · exact h
      · exact h
  case fail => exact h
  case noFuel => exact h

theorem topUp_status_ok (ok : Nat → Bool) (ov : Bool) (r : FillRes)
    (h : (topUp ok ov r).status = FillStatus.ok) : r.status = FillStatus.ok := by
  obtain ⟨st, t, d⟩ := r
  cases st
  case ok => rfl
  case fail => exact h
  case noFuel => exact h

theorem topUp_size_le (ok : Nat → Bool) (ov : Bool) (r : FillRes)
    (h : (topUp ok ov r).status = FillStatus.ok) :
    poolSize r.state ≤ poolSize (topUp ok ov r).state := by
  obtain ⟨st, t, d⟩ := r
  cases st
  case ok =>
    simp only [topUp] at h ⊢
    split
    · exact Nat.le_refl _
    · split
      · split
        · rename_i hfz hguard hok
          have hfs : freesize t < t.maxsize := by
            simp only [poolSize] at hguard
            omega
          simp only []
          rw [poolSize_createAppend_of_lt hfs]
          omega
        · rename_i hfz hguard hok
          rw [if_neg hfz, if_pos hguard, if_neg hok] at h
          exact absurd h (by simp)
      · exact Nat.le_refl _
  case fail => exact Nat.le_refl _
  case noFuel => exact Nat.le_refl _

theorem topUp_goodDb (ok : Nat → Bool) (ov : Bool) (r : FillRes)
    (h : ∀ c ∈ r.state.pool, c.db = r.state.db) :
    ∀ c ∈ (topUp ok ov r).state.pool, c.db = r.state.db := by
  obtain ⟨st, t, d⟩ := r
  cases st <;> simp only [topUp]
  case ok =>
    split
    · exact h
    · split
      · split
        · intro c hc
          rcases mem_createAppend_pool hc with hc' | hc'
          · exact h c hc'
          · subst hc'; rfl
        · exact h
      · exact h
  case fail => exact h
  case noFuel => exact h

theorem topUp_bounded (ok : Nat → Bool) (ov : Bool) (r : FillRes)
    (hb : freesize r.state + r.state.used.length ≤ r.state.maxsize) :
    freesize (topUp ok ov r).state + (topUp ok ov r).state.used.length ≤ r.state.maxsize := by
  obtain ⟨st, t, d⟩ := r
  cases st <;> simp only [topUp]
  case ok =>
    split
    · exact hb
    · split
      · split
        · rename_i hfz hguard hok
          have hfs : freesize t < t.maxsize := by
            simp only [poolSize] at hguard
            omega
          simp only []
          rw [freesize_createAppend_of_lt hfs, createAppend_used]
          simp only [poolSize, freesize, not_not] at hguard hfs hb hfz ⊢
          omega
        · exact hb
      · exact hb
  case fail => exact hb
  case noFuel => exact hb

theorem topUp_dropped_nil (ok : Nat → Bool) (ov : Bool) (r : FillRes)
    (hd : r.dropped = []) : (topUp ok ov r).dropped = [] := by
  obtain ⟨st, t, d⟩ := r
  simp only [] at hd
  subst hd
  cases st <;> simp only [topUp]
  case ok =>
    split
    · rfl
    · split
      · split
        · rename_i hfz hguard hok
          have hfs : freesize t < t.maxsize := by
            simp only [poolSize] at hguard
            omega
          simpa using createDropped_of_lt hfs
        · rfl
      · rfl

theorem fillFree_acquiring (ok : Nat → Bool) (fuel : Nat) (ov : Bool) (s : PoolState) :
    (fillFree ok fuel ov s).state.acquiring = s.acquiring := by
  unfold fillFree
  rw [topUp_acquiring]
  exact (fillLoop_frame ok fuel s).1

theorem fillFree_minsize (ok : Nat → Bool) (fuel : Nat) (ov : Bool) (s : PoolState) :
    (fillFree ok fuel ov s).state.minsize = s.minsize := by
  unfold fillFree
  rw [(topUp_frame ok ov (fillLoop ok fuel s)).1]
  exact (fillLoop_frame ok fuel s).2.1

theorem fillFree_maxsize (ok : Nat → Bool) (fuel : Nat) (ov : Bool) (s : PoolState) :
    (fillFree ok fuel ov s).state.maxsize = s.maxsize := by
  unfold fillFree
  rw [(topUp_frame ok ov (fillLoop ok fuel s)).2.1]
  exact (fillLoop_frame ok fuel s).2.2.1

theorem fillFree_db (ok : Nat → Bool) (fuel : Nat) (ov : Bool) (s : PoolState) :
    (fillFree ok fuel ov s).state.db = s.db := by
  unfold fillFree
  rw [(topUp_frame ok ov (fillLoop ok fuel s)).2.2.1]
  exact (fillLoop_frame ok fuel s).2.2.2.1

theorem fillFree_used (ok : Nat → Bool) (fuel : Nat) (ov : Bool) (s : PoolState) :
    (fillFree ok fuel ov s).state.used = s.used := by
  unfold fillFree
  rw [(topUp_frame ok ov (fillLoop ok fuel s)).2.2.2]
  exact (fillLoop_frame ok fuel s).2.2.2.2

theorem fillFree_inv (ok : Nat → Bool) (fuel : Nat) (ov : Bool) (s : PoolState)
    (h : PoolInv s) : PoolInv (fillFree ok fuel ov s).state :=
  topUp_inv ok ov _ (fillLoop_inv ok fuel s h)

theorem fillFree_ok_min (ok : Nat → Bool) (fuel : Nat) (ov : Bool) (s : PoolState)
    (h : (fillFree ok fuel ov s).status = FillStatus.ok) :
    s.minsize ≤ poolSize (fillFree ok fuel ov s).state := by
  have hloop := topUp_status_ok ok ov _ h
  have h1 := fillLoop_ok_min ok fuel s hloop
  have h2 := topUp_size_le ok ov (fillLoop ok fuel s) h
  exact Nat.le_trans h1 h2

theorem fillFree_bounded (ok : Nat → Bool) (fuel : Nat) (ov : Bool) (s : PoolState)
    (hmm : s.minsize ≤ s.maxsize)
    (hb : freesize s + s.used.length ≤ s.maxsize) :
    freesize (fillFree ok fuel ov s).state + (fillFree ok fuel ov s).state.used.length
      ≤ s.maxsize := by
  have h1 := fillLoop_bounded ok fuel s hmm hb
  have hM := (fillLoop_frame ok fuel s).2.2.1
  have h2 := topUp_bounded ok ov (fillLoop ok fuel s) (by rw [hM]; exact h1)
  rw [hM] at h2
  exact h2

theorem fillFree_dropped_nil (ok : Nat → Bool) (fuel : Nat) (ov : Bool) (s : PoolState)
    (hmm : s.minsize ≤ s.maxsize) : (fillFree ok fuel ov s).dropped = [] :=
  topUp_dropped_nil ok ov _ (fillLoop_dropped_nil ok fuel s hmm)

theorem fillFree_goodDb (ok : Nat → Bool) (fuel : Nat) (ov : Bool) (s : PoolState)
    (h : ∀ c ∈ s.pool, c.db = s.db) :
    ∀ c ∈ (fillFree ok fuel ov s).state.pool, c.db = s.db := by
  have hd := (fillLoop_frame ok fuel s).2.2.2.1
  have h1 := fillLoop_goodDb ok fuel s h
  have h2 := topUp_goodDb ok ov (fillLoop ok fuel s) (by rw [hd]; exact h1)
  rw [hd] at h2
  exact h2

theorem fillFree_maxzero (ok : Nat → Bool) (fuel : Nat) (ov : Bool) (s : PoolState)
    (h : s.maxsize = 0) : fillFree ok fuel ov s = fillLoop ok fuel s := by
  unfold fillFree
  have hM : (fillLoop ok fuel s).state.maxsize = 0 := by
    rw [(fillLoop_frame ok fuel s).2.2.1]
    exact h
  generalize hr : fillLoop ok fuel s = r
  rw [hr] at hM
  obtain ⟨st, t, d⟩ := r
  simp only [] at hM
  cases st
  case ok =>
    simp only [topUp]
    split
    · rfl
    · rw [if_neg]
      intro hand
      rw [hM] at hand
      omega
  case fail => rfl
  case noFuel => rfl

theorem fillLoop_noFuel_maxzero (ok : Nat → Bool) (hall : ∀ i, ok i = true) (fuel : Nat) :
    ∀ s : PoolState, s.maxsize = 0 → poolSize s < s.minsize →
      (fillLoop ok fuel s).status = FillStatus.noFuel := by
  induction fuel with
  | zero =>
    intro s hM hlt
    rw [fillLoop_zero, if_pos hlt]
  | succ n ih =>
    intro s hM hlt
    rw [fillLoop_succ, if_pos hlt, if_pos (hall s.nextId)]
    simp only []
    apply ih
    · rw [createAppend_maxsize]; exact hM
    · have hpool : (createAppend s).pool = [] := by
        simp only [createAppend, hM, dequeAppend, Nat.sub_zero]
        exact List.drop_length _
      have hlen : freesize (createAppend s) = 0 := by
        simp [freesize, hpool]
      simp only [poolSize, hlen, createAppend_used, createAppend_acquiring,
        createAppend_minsize]
      simp only [poolSize, freesize] at hlt
      omega

theorem releaseRun_not_mem (s : PoolState) (id dbc : Nat) (closedc inTx : Bool)
    (h : id ∉ s.used) : releaseRun s id dbc closedc inTx = none := by
  simp [releaseRun, h]

theorem releaseRun_shape {s : PoolState} {id dbc : Nat} {closedc inTx : Bool}
    {s' : PoolState} {acts : List Act}
    (h : releaseRun s id dbc closedc inTx = some (s', acts)) :
    id ∈ s.used ∧
    s'.used = s.used.erase id ∧
    s'.acquiring = s.acquiring ∧ s'.db = s.db ∧ s'.minsize = s.minsize ∧
    s'.maxsize = s.maxsize ∧ s'.nextId = s.nextId ∧
    ∃ mid, acts = Act.removeUsed id :: mid ++ [Act.scheduleWakeup none] ∧
      ((mid = [] ∧ s'.pool = s.pool ∧ closedc = true) ∨
       (mid = [Act.closeConn id] ∧ s'.pool = s.pool) ∨
       (mid = [Act.appendFree id] ∧ s'.pool = s.pool ++ [⟨id, dbc, false, false⟩] ∧
         s.maxsize ≠ 0 ∧ freesize s < s.maxsize ∧ dbc = s.db ∧
         closedc = false ∧ inTx = false)) := by
  by_cases hmem : id ∈ s.used
  case neg =>
    rw [releaseRun_not_mem s id dbc closedc inTx hmem] at h
    exact absurd h (by simp)
  case pos =>
    refine ⟨hmem, ?_⟩
    cases closedc
    case true =>
      simp only [releaseRun, if_pos hmem] at h
      simp at h
      obtain ⟨hs, ha⟩ := h
      subst hs
      subst ha
      exact ⟨rfl, rfl, rfl, rfl, rfl, rfl, [], rfl, Or.inl ⟨rfl, rfl, rfl⟩⟩
    case false =>
      cases inTx
      case true =>
        simp only [releaseRun, if_pos hmem] at h
        simp at h
        obtain ⟨hs, ha⟩ := h
        subst hs
        subst ha
        exact ⟨rfl, rfl, rfl, rfl, rfl, rfl, [Act.closeConn id], rfl,
          Or.inr (Or.inl ⟨rfl, rfl⟩)⟩
      case false =>
        by_cases hdb : dbc = s.db
        case neg =>
          simp only [releaseRun, if_pos hmem] at h
          simp [hdb] at h
          obtain ⟨hs, ha⟩ := h
          subst hs
          subst ha
          exact ⟨rfl, rfl, rfl, rfl, rfl, rfl, [Act.closeConn id], rfl,
            Or.inr (Or.inl ⟨rfl, rfl⟩)⟩
        case pos =>
          by_cases hguard : s.maxsize ≠ 0 ∧ freesize { s with used := s.used.erase id } < s.maxsize
          case pos =>
            simp only [releaseRun, if_pos hmem] at h
            simp [hdb, hguard] at h
            obtain ⟨hs, ha⟩ := h
            subst hs
            subst ha
            have hfs : freesize s < s.maxsize := hguard.2
            refine ⟨rfl, rfl, rfl, rfl, rfl, rfl, [Act.appendFree id], rfl,
              Or.inr (Or.inr ⟨rfl, ?_, hguard.1, hfs, hdb, rfl, rfl⟩)⟩
            simp only []
            rw [hdb]
            exact dequeAppend_fst_of_lt hfs
          case neg =>
            simp only [releaseRun, if_pos hmem] at h
            simp [hdb, hguard] at h
            obtain ⟨hs, ha⟩ := h
            subst hs
            subst ha
            exact ⟨rfl, rfl, rfl, rfl, rfl, rfl, [Act.closeConn id], rfl,
              Or.inr (Or.inl ⟨rfl, rfl⟩)⟩

theorem releaseRun_inv {s : PoolState} {id dbc : Nat} {closedc inTx : Bool}
    {s' : PoolState} {acts : List Act}
    (hinv : PoolInv s) (h : releaseRun s id dbc closedc inTx = some (s', acts)) :
    PoolInv s' := by
  obtain ⟨h1, h2, h3, h4, h5, h6⟩ := hinv
  obtain ⟨hmem, hused, _, _, _, _, hnext, mid, hacts, hcase⟩ := releaseRun_shape h
  have husedN : s'.used.Nodup := by rw [hused]; exact h2.erase id
  have husedSub : ∀ i ∈ s'.used, i ∈ s.used := by
    rw [hused]; intro i hi; exact List.mem_of_mem_erase hi
  rcases hcase with ⟨_, hpool, _⟩ | ⟨_, hpool⟩ | ⟨_, hpool, _, _, _, _, _⟩
  · refine ⟨?_, husedN, ?_, ?_, ?_, ?_⟩
    · rw [poolIds, hpool]; exact h1
    · intro c hc hin
      exact h3 c (by rwa [hpool] at hc) (husedSub _ hin)
    · intro c hc; exact h4 c (by rwa [hpool] at hc)
    · intro c hc; rw [hnext]; exact h5 c (by rwa [hpool] at hc)
    · intro i hi; rw [hnext]; exact h6 i (husedSub _ hi)
  · refine ⟨?_, husedN, ?_, ?_, ?_, ?_⟩
    · rw [poolIds, hpool]; exact h1
    · intro c hc hin
      exact h3 c (by rwa [hpool] at hc) (husedSub _ hin)
    · intro c hc; exact h4 c (by rwa [hpool] at hc)
    · intro c hc; rw [hnext]; exact h5 c (by rwa [hpool] at hc)
    · intro i hi; rw [hnext]; exact h6 i (husedSub _ hi)
  · have hidf : id ∉ poolIds s := by
      intro hin
      obtain ⟨c, hc, hcid⟩ := List.mem_map.mp hin
      exact h3 c hc (hcid ▸ hmem)
    refine ⟨?_, husedN, ?_, ?_, ?_, ?_⟩
    · rw [poolIds, hpool, List.map_append, List.nodup_append]
      refine ⟨h1, List.nodup_singleton _, ?_⟩
      intro a ha hb
      simp at hb
      subst hb
      exact hidf ha
    · intro c hc hin
      rw [hpool] at hc
      rcases List.mem_append.mp hc with hc' | hc'
      · exact h3 c hc' (husedSub _ hin)
      · simp at hc'
        subst hc'
        rw [hused] at hin
        exact absurd hin (by simpa using fun h' => (h2.mem_erase_iff.mp h').1 rfl)
    · intro c hc
      rw [hpool] at hc
      rcases List.mem_append.mp hc with hc' | hc'
      · exact h4 c hc'
      · simp at hc'; subst hc'; rfl
    · intro c hc
      rw [hnext, hpool] at *
      rcases List.mem_append.mp hc with hc' | hc'
      · exact h5 c hc'
      · simp at hc'; subst hc'; exact h6 id hmem
    · intro i hi; rw [hnext]; exact h6 i (husedSub _ hi)

theorem releaseRun_mismatch {s : PoolState} {id dbc : Nat} {inTx : Bool}
    {s' : PoolState} {acts : List Act}
    (hdb : dbc ≠ s.db) (h : releaseRun s id dbc false inTx = some (s', acts)) :
    acts = [Act.removeUsed id, Act.closeConn id, Act.scheduleWakeup none] ∧
      s'.pool = s.pool := by
  obtain ⟨hmem, hused, _, _, _, _, hnext, mid, hacts, hcase⟩ := releaseRun_shape h
  rcases hcase with ⟨hmid, hpool, hcl⟩ | ⟨hmid, hpool⟩ | ⟨hmid, hpool, _, _, hdb', _, _⟩
  · exact absurd hcl (by simp)
  · subst hmid; exact ⟨by simpa using hacts, hpool⟩
  · exact absurd hdb' hdb

theorem switchFree_true_iff (d : Nat) (ok : Nat → Bool) :
    ∀ (l : List Conn) (i : Nat),
      (switchFree d ok i l).1 = true ↔ ∀ j < l.length, ok (i + j) = true := by
  intro l
  induction l with
  | nil => intro i; simp [switchFree]
  | cons c rest ih =>
    intro i
    by_cases hok : ok i = true
    · simp only [switchFree, if_pos hok]
      rw [ih (i + 1)]
      constructor
      · intro hall j hj
        cases j with
        | zero => simpa using hok
        | succ k =>
          have := hall k (by simpa using Nat.lt_of_succ_lt_succ hj)
          have harith : i + 1 + k = i + (k + 1) := by omega
          rwa [harith] at this
      · intro hall j hj
        have := hall (j + 1) (by simpa using Nat.succ_lt_succ hj)
        have harith : i + (j + 1) = i + 1 + j := by omega
        rwa [harith] at this
    · simp only [switchFree, if_neg hok]
      constructor
      · intro hf; exact absurd hf (by simp)
      · intro hall
        have := hall 0 (by simp)
        simp at this
        exact absurd this hok

theorem switchFree_all (d : Nat) (ok : Nat → Bool) :
    ∀ (l : List Conn) (i : Nat), (∀ j < l.length, ok (i + j) = true) →
      switchFree d ok i l = (true, l.map fun c => { c with db := d }) := by
  intro l
  induction l with
  | nil => intro i h; rfl
  | cons c rest ih =>
    intro i h
    have hok : ok i = true := by simpa using h 0 (by simp)
    have hrest : ∀ j < rest.length, ok (i + 1 + j) = true := by
      intro j hj
      have := h (j + 1) (by simpa using Nat.succ_lt_succ hj)
      have harith : i + (j + 1) = i + 1 + j := by omega
      rwa [harith] at this
    simp only [switchFree, if_pos hok, ih (i + 1) hrest]
    rfl

theorem switchFree_mem (d : Nat) (ok : Nat → Bool) :
    ∀ (l : List Conn) (i : Nat) (x : Conn), x ∈ (switchFree d ok i l).2 →
      ∃ c ∈ l, x = c ∨ x = { c with db := d } := by
  intro l
  induction l with
  | nil => intro i x hx; simp [switchFree] at hx
  | cons c rest ih =>
    intro i x hx
    by_cases hok : ok i = true
    · simp only [switchFree, if_pos hok] at hx
      rcases List.mem_cons.mp hx with hx' | hx'
      · exact ⟨c, List.mem_cons_self _ _, Or.inr hx'⟩
      · obtain ⟨c0, hc0, hcase⟩ := ih (i + 1) x hx'
        exact ⟨c0, List.mem_cons_of_mem _ hc0, hcase⟩
    · simp only [switchFree, if_neg hok] at hx
      rcases List.mem_cons.mp hx with hx' | hx'
      · exact ⟨c, List.mem_cons_self _ _, Or.inl hx'⟩
      · exact ⟨x, List.mem_cons_of_mem _ hx', Or.inl rfl⟩

theorem switchFree_map_id (d : Nat) (ok : Nat → Bool) :
    ∀ (l : List Conn) (i : Nat),
      ((switchFree d ok i l).2).map Conn.id = l.map Conn.id := by
  intro l
  induction l with
  | nil => intro i; rfl
  | cons c rest ih =>
    intro i
    by_cases hok : ok i = true
    · simp only [switchFree, if_pos hok]
      simp only [List.map_cons]
      rw [ih (i + 1)]
    · simp only [switchFree, if_neg hok]

theorem switchFree_firstFail (d : Nat) (ok : Nat → Bool) :
    ∀ (l : List Conn) (i k : Nat), k < l.length → ok (i + k) = false →
      (∀ j < k, ok (i + j) = true) →
      switchFree d ok i l =
        (false, (l.take k).map (fun c => { c with db := d }) ++ l.drop k) := by
  intro l
  induction l with
  | nil => intro i k hk; simp at hk
  | cons c rest ih =>
    intro i k hk hfail hpre
    cases k with
    | zero =>
      have hok : ok i = false := by simpa using hfail
      simp [switchFree, hok]
    | succ k' =>
      have hok : ok i = true := by simpa using hpre 0 (by simp)
      have hfail' : ok (i + 1 + k') = false := by
        have harith : i + (k' + 1) = i + 1 + k' := by omega
        rwa [harith] at hfail
      have hpre' : ∀ j < k', ok (i + 1 + j) = true := by
        intro j hj
        have := hpre (j + 1) (by omega)
        have harith : i + (j + 1) = i + 1 + j := by omega
        rwa [harith] at this
      have hk' : k' < rest.length := by simpa using Nat.lt_of_succ_lt_succ hk
      simp only [switchFree, if_pos hok, ih (i + 1) k' hk' hfail' hpre']
      simp

theorem selectRun_inv (s : PoolState) (d : Nat) (ok : Nat → Bool)
    (h : PoolInv s) : PoolInv (selectRun s d ok).2 := by
  obtain ⟨h1, h2, h3, h4, h5, h6⟩ := h
  have hmap := switchFree_map_id d ok s.pool 0
  have hN : ((switchFree d ok 0 s.pool).2.map Conn.id).Nodup := by
    rw [hmap]; exact h1
  have hD : ∀ x ∈ (switchFree d ok 0 s.pool).2, x.id ∉ s.used := by
    intro x hx
    obtain ⟨c, hc, hcase⟩ := switchFree_mem d ok s.pool 0 x hx
    rcases hcase with rfl | rfl
    · exact h3 _ hc
    · simpa using h3 _ hc
  have hO : ∀ x ∈ (switchFree d ok 0 s.pool).2, x.closed = false := by
    intro x hx
    obtain ⟨c, hc, hcase⟩ := switchFree_mem d ok s.pool 0 x hx
    rcases hcase with rfl | rfl
    · exact h4 _ hc
    · simpa using h4 _ hc
  have hL : ∀ x ∈ (switchFree d ok 0 s.pool).2, x.id < s.nextId := by
    intro x hx
    obtain ⟨c, hc, hcase⟩ := switchFree_mem d ok s.pool 0 x hx
    rcases hcase with rfl | rfl
    · exact h5 _ hc
    · simpa using h5 _ hc
  simp only [selectRun]
  split
  · exact ⟨hN, h2, hD, hO, hL, h6⟩
  · exact ⟨hN, h2, hD, hO, hL, h6⟩

theorem selectRun_allOk (s : PoolState) (dbNew : Nat) :
    selectRun s dbNew (fun _ => true) =
      (true, { s with pool := s.pool.map (fun c => { c with db := dbNew }),
                      db := dbNew }) := by
  simp only [selectRun]
  rw [switchFree_all dbNew (fun _ => true) s.pool 0 (fun j hj => rfl)]
  simp

theorem popLease_frame (r : FillRes) :
    (popLease r).state.acquiring = r.state.acquiring ∧
    (popLease r).state.minsize = r.state.minsize ∧
    (popLease r).state.maxsize = r.state.maxsize ∧
    (popLease r).state.db = r.state.db ∧
    (popLease r).state.nextId = r.state.nextId := by
  obtain ⟨st, ⟨p, u, a, db0, mn, mx, ni⟩, d⟩ := r
  cases st
  case ok =>
    cases p with
    | nil => exact ⟨rfl, rfl, rfl, rfl, rfl⟩
    | cons c rest =>
      simp only [popLease]
      split
      · exact ⟨rfl, rfl, rfl, rfl, rfl⟩
      · exact ⟨rfl, rfl, rfl, rfl, rfl⟩
  case fail => exact ⟨rfl, rfl, rfl, rfl, rfl⟩
  case noFuel => exact ⟨rfl, rfl, rfl, rfl, rfl⟩

theorem popLease_inv (r : FillRes) (h : PoolInv r.state) : PoolInv (popLease r).state := by
  obtain ⟨st, ⟨p, u, a, db0, mn, mx, ni⟩, d⟩ := r
  cases st
  case ok =>
    obtain ⟨h1, h2, h3, h4, h5, h6⟩ := h
    simp only [poolIds] at h1
    simp only [] at h1 h2 h3 h4 h5 h6
    cases p with
    | nil => exact ⟨h1, h2, h3, h4, h5, h6⟩
    | cons c rest =>
      simp only [popLease]
      have h1' : (c.id :: rest.map Conn.id).Nodup := by simpa using h1
      split
      · refine ⟨h1'.of_cons, h2, ?_, ?_, ?_, h6⟩
        · intro x hx; exact h3 x (List.mem_cons_of_mem _ hx)
        · intro x hx; exact h4 x (List.mem_cons_of_mem _ hx)
        · intro x hx; exact h5 x (List.mem_cons_of_mem _ hx)
      · rename_i hcond
        push_neg at hcond
        have hcnotu : c.id ∉ u := hcond.2
        refine ⟨h1'.of_cons, ?_, ?_, ?_, ?_, ?_⟩
        · exact List.nodup_cons.mpr ⟨hcnotu, h2⟩
        · intro x hx
          simp only [List.mem_cons, not_or]
          constructor
          · intro hxe
            have hmm : x.id ∈ rest.map Conn.id := List.mem_map.mpr ⟨x, hx, rfl⟩
            rw [hxe] at hmm
            exact (List.nodup_cons.mp h1').1 hmm
          · exact h3 x (List.mem_cons_of_mem _ hx)
        · intro x hx; exact h4 x (List.mem_cons_of_mem _ hx)
        · intro x hx; exact h5 x (List.mem_cons_of_mem _ hx)
        · intro i hi
          rcases List.mem_cons.mp hi with hi' | hi'
          · subst hi'; exact h5 c (List.mem_cons_self _ _)
          · exact h6 i hi'
  case fail => exact h
  case noFuel => exact h

theorem popLease_no_assert (r : FillRes) (h : PoolInv r.state) :
    (popLease r).status ≠ AcqStatus.assertFailed := by
  obtain ⟨st, ⟨p, u, a, db0, mn, mx, ni⟩, d⟩ := r
  cases st
  case ok =>
    obtain ⟨h1, h2, h3, h4, h5, h6⟩ := h
    simp only [] at h3 h4
    cases p with
    | nil => simp [popLease]
    | cons c rest =>
      simp only [popLease]
      have hcl : c.closed = false := h4 c (List.mem_cons_self _ _)
      have hcu : c.id ∉ u := h3 c (List.mem_cons_self _ _)
      rw [if_neg (by simp [hcl, hcu])]
      simp
  case fail => simp [popLease]
  case noFuel => simp [popLease]

theorem popLease_size (r : FillRes) :
    freesize (popLease r).state + (popLease r).state.used.length ≤
      freesize r.state + r.state.used.length ∧
    ((popLease r).status = AcqStatus.acquired →
      poolSize (popLease r).state = poolSize r.state) := by
  obtain ⟨st, ⟨p, u, a, db0, mn, mx, ni⟩, d⟩ := r
  cases st
  case ok =>
    cases p with
    | nil => exact ⟨Nat.le_refl _, fun _ => rfl⟩
    | cons c rest =>
      simp only [popLease]
      split
      · constructor
        · simp [freesize]
        · intro hst; simp at hst
      · constructor
        · simp [freesize]
          omega
        · intro _
          simp [poolSize, freesize]
          omega
  case fail => exact ⟨Nat.le_refl _, fun hst => by simp [popLease] at hst⟩
  case noFuel => exact ⟨Nat.le_refl _, fun hst => by simp [popLease] at hst⟩

theorem popLease_conn_mem (r : FillRes) (c : Conn)
    (h : (popLease r).conn = some c) : c ∈ r.state.pool := by
  obtain ⟨st, ⟨p, u, a, db0, mn, mx, ni⟩, d⟩ := r
  cases st
  case ok =>
    cases p with
    | nil => simp [popLease] at h
    | cons c0 rest =>
      simp only [popLease] at h
      split at h
      · simp at h
      · simp at h
        subst h
        exact List.mem_cons_self _ _
  case fail => simp [popLease] at h
  case noFuel => simp [popLease] at h

theorem popLease_pool_sub (r : FillRes) :
    ∀ c ∈ (popLease r).state.pool, c ∈ r.state.pool := by
  obtain ⟨st, ⟨p, u, a, db0, mn, mx, ni⟩, d⟩ := r
  cases st
  case ok =>
    cases p with
    | nil => exact fun c hc => hc
    | cons c0 rest =>
      simp only [popLease]
      split
      · intro c hc
        simp only [] at hc
        exact List.mem_cons_of_mem _ hc
      · intro c hc
        simp only [] at hc
        exact List.mem_cons_of_mem _ hc
  case fail => exact fun c hc => hc
  case noFuel => exact fun c hc => hc

theorem popLease_used_sub (r : FillRes) :
    ∀ i ∈ (popLease r).state.used,
      i ∈ r.state.used ∨ ∃ c, (popLease r).conn = some c ∧ c.id = i := by
  obtain ⟨st, ⟨p, u, a, db0, mn, mx, ni⟩, d⟩ := r
  cases st
  case ok =>
    cases p with
    | nil => exact fun i hi => Or.inl hi
    | cons c0 rest =>
      simp only [popLease]
      split
      · intro i hi
        simp only [] at hi
        exact Or.inl hi
      · intro i hi
        simp only [] at hi
        rcases List.mem_cons.mp hi with hi' | hi'
        · exact Or.inr ⟨c0, rfl, hi'.symm⟩
        · exact Or.inl hi'
  case fail => exact fun i hi => Or.inl hi
  case noFuel => exact fun i hi => Or.inl hi

theorem switchFree_length (d : Nat) (ok : Nat → Bool) (l : List Conn) (i : Nat) :
    ((switchFree d ok i l).2).length = l.length := by
  have h := congrArg List.length (switchFree_map_id d ok l i)
  simpa using h

theorem runOp_inv (s : PoolState) (op : Op) (h : PoolInv s) : PoolInv (runOp s op).1 := by
  cases op with
  | initFill fuel ok =>
    simp only [runOp]
    exact fillFree_inv ok fuel false s h
  | acquire fuel ok =>
    simp only [runOp, acquireRun]
    exact popLease_inv _ (fillFree_inv ok fuel true s h)
  | release id dbc closedc inTx =>
    simp only [runOp]
    cases hrel : releaseRun s id dbc closedc inTx with
    | none => exact h
    | some pr =>
      obtain ⟨s', acts⟩ := pr
      exact releaseRun_inv h hrel
  | select dbNew ok =>
    simp only [runOp]
    exact selectRun_inv s dbNew ok h
  | clear =>
    obtain ⟨h1, h2, h3, h4, h5, h6⟩ := h
    simp only [runOp, clearRun]
    exact ⟨by simp [poolIds], h2, by simp, by simp, by simp, h6⟩

theorem runOp_frame (s : PoolState) (op : Op) :
    (runOp s op).1.acquiring = s.acquiring ∧
    (runOp s op).1.minsize = s.minsize ∧
    (runOp s op).1.maxsize = s.maxsize := by
  cases op with
  | initFill fuel ok =>
    simp only [runOp]
    exact ⟨fillFree_acquiring ok fuel false s, fillFree_minsize ok fuel false s,
      fillFree_maxsize ok fuel false s⟩
  | acquire fuel ok =>
    simp only [runOp, acquireRun]
    obtain ⟨hA, hm, hM, _, _⟩ := popLease_frame (fillFree ok fuel true s)
    exact ⟨by rw [hA, fillFree_acquiring], by rw [hm, fillFree_minsize],
      by rw [hM, fillFree_maxsize]⟩
  | release id dbc closedc inTx =>
    simp only [runOp]
    cases hrel : releaseRun s id dbc closedc inTx with
    | none => exact ⟨rfl, rfl, rfl⟩
    | some pr =>
      obtain ⟨s', acts⟩ := pr
      obtain ⟨_, _, hA, _, hm, hM, _, _⟩ := releaseRun_shape hrel
      exact ⟨hA, hm, hM⟩
  | select dbNew ok =>
    simp only [runOp, selectRun]
    split
    · exact ⟨rfl, rfl, rfl⟩
    · exact ⟨rfl, rfl, rfl⟩
  | clear => exact ⟨rfl, rfl, rfl⟩

theorem runOp_bounded (s : PoolState) (op : Op)
    (hmm : s.minsize ≤ s.maxsize)
    (hb : freesize s + s.used.length ≤ s.maxsize) :
    freesize (runOp s op).1 + (runOp s op).1.used.length ≤ s.maxsize := by
  cases op with
  | initFill fuel ok =>
    simp only [runOp]
    exact fillFree_bounded ok fuel false s hmm hb
  | acquire fuel ok =>
    simp only [runOp, acquireRun]
    have h1 := (popLease_size (fillFree ok fuel true s)).1
    have h2 := fillFree_bounded ok fuel true s hmm hb
    rw [fillFree_used] at h1 h2
    exact Nat.le_trans h1 h2
  | release id dbc closedc inTx =>
    simp only [runOp]
    cases hrel : releaseRun s id dbc closedc inTx with
    | none => exact hb
    | some pr =>
      obtain ⟨s', acts⟩ := pr
      obtain ⟨hmem, hused, _, _, _, _, _, mid, hacts, hcase⟩ := releaseRun_shape hrel
      have hulen : s'.used.length = s.used.length - 1 := by
        rw [hused]; exact List.length_erase_of_mem hmem
      have humem : 1 ≤ s.used.length := List.length_pos_of_mem hmem
      rcases hcase with ⟨_, hpool, _⟩ | ⟨_, hpool⟩ | ⟨_, hpool, _, _, _, _, _⟩
      · have hlen1 : s'.pool.length = s.pool.length := by rw [hpool]
        simp only [freesize] at hb ⊢
        omega
      · have hlen1 : s'.pool.length = s.pool.length := by rw [hpool]
        simp only [freesize] at hb ⊢
        omega
      · have hlen1 : s'.pool.length = s.pool.length + 1 := by rw [hpool]; simp
        simp only [freesize] at hb ⊢
        omega
  | select dbNew ok =>
    simp only [runOp, selectRun]
    split
    · simp only [freesize, switchFree_length]
      simpa [freesize] using hb
    · simp only [freesize, switchFree_length]
      simpa [freesize] using hb
  | clear =>
    simp only [runOp, clearRun, freesize]
    simp only [freesize] at hb
    simp
    omega

theorem runOp_goodDb (dv : Nat) (s : PoolState) (op : Op)
    (_hinv : PoolInv s) (hg : GoodDb dv s) (hns : Op.notSelect op) :
    GoodDb dv (runOp s op).1 ∧ (∀ c : Conn, (runOp s op).2 = some c → c.db = dv) := by
  obtain ⟨hdb, hpool⟩ := hg
  cases op with
  | initFill fuel ok =>
    simp only [runOp]
    have hgd := fillFree_goodDb ok fuel false s (by intro c hc; rw [hdb]; exact hpool c hc)
    refine ⟨⟨by rw [fillFree_db, hdb], ?_⟩, by intro c hc; simp at hc⟩
    intro c hc
    rw [← hdb]
    exact hgd c hc
  | acquire fuel ok =>
    simp only [runOp, acquireRun]
    have hgd := fillFree_goodDb ok fuel true s (by intro c hc; rw [hdb]; exact hpool c hc)
    have hdb' : (popLease (fillFree ok fuel true s)).state.db = dv := by
      rw [(popLease_frame _).2.2.2.1, fillFree_db, hdb]
    refine ⟨⟨hdb', ?_⟩, ?_⟩
    · intro c hc
      have := popLease_pool_sub (fillFree ok fuel true s) c hc
      rw [← hdb]
      exact hgd c this
    · intro c hc
      have := popLease_conn_mem (fillFree ok fuel true s) c hc
      rw [← hdb]
      exact hgd c this
  | release id dbc closedc inTx =>
    simp only [runOp]
    cases hrel : releaseRun s id dbc closedc inTx with
    | none => exact ⟨⟨hdb, hpool⟩, by intro c hc; simp at hc⟩
    | some pr =>
      obtain ⟨s', acts⟩ := pr
      obtain ⟨hmem, _, _, hdb', _, _, _, mid, hacts, hcase⟩ := releaseRun_shape hrel
      refine ⟨⟨by rw [hdb', hdb], ?_⟩, by intro c hc; simp at hc⟩
      rcases hcase with ⟨_, hpo, _⟩ | ⟨_, hpo⟩ | ⟨_, hpo, _, _, hdbm, _, _⟩
      · intro c hc; exact hpool c (by rwa [hpo] at hc)
      · intro c hc; exact hpool c (by rwa [hpo] at hc)
      · intro c hc
        rw [hpo] at hc
        rcases List.mem_append.mp hc with hc' | hc'
        · exact hpool c hc'
        · simp at hc'
          subst hc'
          show dbc = dv
          rw [hdbm, hdb]
  | select dbNew ok => exact absurd hns (by simp [Op.notSelect])
  | clear =>
    refine ⟨⟨hdb, ?_⟩, by intro c hc; simp [runOp] at hc⟩
    intro c hc
    simp [runOp, clearRun] at hc

theorem reach_inv (ops : List Op) : ∀ s : PoolState, PoolInv s → PoolInv (reach s ops) := by
  induction ops with
  | nil => intro s h; exact h
  | cons op rest ih =>
    intro s h
    exact ih _ (runOp_inv s op h)

theorem reach_frame (ops : List Op) : ∀ s : PoolState,
    (reach s ops).acquiring = s.acquiring ∧
    (reach s ops).minsize = s.minsize ∧
    (reach s ops).maxsize = s.maxsize := by
  induction ops with
  | nil => intro s; exact ⟨rfl, rfl, rfl⟩
  | cons op rest ih =>
    intro s
    obtain ⟨hA, hm, hM⟩ := ih (runOp s op).1
    obtain ⟨hA', hm', hM'⟩ := runOp_frame s op
    exact ⟨by rw [reach, hA, hA'], by rw [reach, hm, hm'], by rw [reach, hM, hM']⟩

theorem reach_bounded (ops : List Op) : ∀ s : PoolState,
    s.minsize ≤ s.maxsize →
    freesize s + s.used.length ≤ s.maxsize →
    freesize (reach s ops) + (reach s ops).used.length ≤ s.maxsize := by
  induction ops with
  | nil => intro s _ hb; exact hb
  | cons op rest ih =>
    intro s hmm hb
    obtain ⟨_, hm, hM⟩ := runOp_frame s op
    have hstep := runOp_bounded s op hmm hb
    have := ih (runOp s op).1 (by rw [hm, hM]; exact hmm) (by rw [hM]; exact hstep)
    rw [reach]
    rw [hM] at this
    exact this

theorem acquiredConns_db (dv : Nat) (ops : List Op) : ∀ s : PoolState,
    PoolInv s → GoodDb dv s → (∀ op ∈ ops, Op.notSelect op) →
    ∀ c ∈ acquiredConns s ops, c.db = dv := by
  induction ops with
  | nil => intro s _ _ _ c hc; simp [acquiredConns] at hc
  | cons op rest ih =>
    intro s hinv hg hns c hc
    obtain ⟨hg', hconn⟩ := runOp_goodDb dv s op hinv hg (hns op (List.mem_cons_self _ _))
    simp only [acquiredConns] at hc
    rcases List.mem_append.mp hc with hc' | hc'
    · cases hop : (runOp s op).2 with
      | none => rw [hop] at hc'; simp at hc'
      | some c0 =>
        rw [hop] at hc'
        simp at hc'
        subst hc'
        exact hconn c hop
    · exact ih (runOp s op).1 (runOp_inv s op hinv) hg'
        (fun o ho => hns o (List.mem_cons_of_mem _ ho)) c hc'

theorem poolInv_initState (db m M : Nat) : PoolInv (initState db m M) := by
  refine ⟨?_, ?_, ?_, ?_, ?_, ?_⟩ <;> simp [initState, poolIds]

theorem popLease_fail (r : FillRes) (h : r.status = FillStatus.fail) :
    popLease r = ⟨AcqStatus.fillFailed, none, r.state⟩ := by
  obtain ⟨st, t, d⟩ := r
  simp only [] at h
  subst h
  rfl

theorem popLease_acquired_status (r : FillRes)
    (h : (popLease r).status = AcqStatus.acquired) : r.status = FillStatus.ok := by
  obtain ⟨st, t, d⟩ := r
  cases st
  case ok => rfl
  case fail => simp [popLease] at h
  case noFuel => simp [popLease] at h

theorem fillLoop_done (ok : Nat → Bool) (fuel : Nat) (s : PoolState)
    (h : ¬ poolSize s < s.minsize) :
    fillLoop ok fuel s = ⟨FillStatus.ok, s, []⟩ := by
  cases fuel with
  | zero => rw [fillLoop_zero, if_neg h]
  | succ n => rw [fillLoop_succ, if_neg h]

theorem selectRun_fst (s : PoolState) (dbNew : Nat) (ok : Nat → Bool) :
    (selectRun s dbNew ok).1 = (switchFree dbNew ok 0 s.pool).1 := by
  simp only [selectRun]
  split
  · rename_i h; exact h.symm
  · rename_i h
    simp at h
    exact h.symm

theorem selectRun_pool (s : PoolState) (dbNew : Nat) (ok : Nat → Bool) :
    (selectRun s dbNew ok).2.pool = (switchFree dbNew ok 0 s.pool).2 := by
  simp only [selectRun]
  split
  · rfl
  · rfl

/-- C2: in every reachable pool state no connection is simultaneously in
the free deque and the leased set, the leased set holds no connection
twice, and consequently the two assertions in `acquire` (popped
connection not closed and not already leased) can never fire; every
acquire and release (and fill, select, clear) preserves this. -/
theorem pool_free_leased_exclusive :
    ∀ (db m M : Nat) (ops : List Op),
      (∀ i ∈ poolIds (reach (initState db m M) ops),
        i ∉ (reach (initState db m M) ops).used) ∧
      (reach (initState db m M) ops).used.Nodup ∧
      (∀ (ok : Nat → Bool) (fuel : Nat),
        (acquireRun ok fuel (reach (initState db m M) ops)).status ≠
          AcqStatus.assertFailed) := by
  intro db m M ops
  have hinv := reach_inv ops (initState db m M) (poolInv_initState db m M)
  refine ⟨?_, hinv.2.1, ?_⟩
  · intro i hi
    simp only [poolIds] at hi
    obtain ⟨c, hc, hcid⟩ := List.mem_map.mp hi
    subst hcid
    exact hinv.2.2.1 c hc
  · intro ok fuel
    simp only [acquireRun]
    exact popLease_no_assert _ (fillFree_inv ok fuel true _ hinv)

/-- C3: releasing a connection that is not a member of the leased set
raises (`assert conn in self._used` fails, modelled as `none`) and
leaves the pool state — free deque, leased set, pending counter, db
index — completely unchanged. -/
theorem release_foreign_misuse :
    ∀ (s : PoolState) (id dbc : Nat) (closedc inTx : Bool),
      id ∉ s.used →
      releaseRun s id dbc closedc inTx = none ∧
      runOp s (Op.release id dbc closedc inTx) = (s, none) := by
  intro s id dbc closedc inTx h
  have hrel := releaseRun_not_mem s id dbc closedc inTx h
  exact ⟨hrel, by simp [runOp, hrel]⟩

theorem release_foreign_misuse_witness :
    releaseRun { pool := [], used := [], acquiring := 0, db := 0,
                 minsize := 1, maxsize := 1, nextId := 0 } 5 0 false false = none ∧
    runOp { pool := [], used := [], acquiring := 0, db := 0,
            minsize := 1, maxsize := 1, nextId := 0 }
        (Op.release 5 0 false false) =
      ({ pool := [], used := [], acquiring := 0, db := 0,
         minsize := 1, maxsize := 1, nextId := 0 }, none) :=
  release_foreign_misuse
    { pool := [], used := [], acquiring := 0, db := 0,
      minsize := 1, maxsize := 1, nextId := 0 } 5 0 false false (by decide)

/-- C7: whatever the factory outcomes, `_fill_free` leaves the
`_acquiring` (pending) counter exactly as it found it — every reserved
slot is released by the `finally` — and when the loop fails the
exception propagates to the `acquire` caller, which observes the
failure with the pending counter restored. -/
theorem fill_failure_rollback :
    ∀ (ok : Nat → Bool) (fuel : Nat) (ov : Bool) (s : PoolState),
      (fillFree ok fuel ov s).state.acquiring = s.acquiring ∧
      ((fillFree ok fuel true s).status = FillStatus.fail →
        acquireRun ok fuel s =
          ⟨AcqStatus.fillFailed, none, (fillFree ok fuel true s).state⟩) := by
  intro ok fuel ov s
  refine ⟨fillFree_acquiring ok fuel ov s, fun h => ?_⟩
  simp only [acquireRun]
  exact popLease_fail _ h

theorem fill_failure_rollback_witness :
    (fillFree (fun _ => false) 1 true (initState 0 1 1)).state.acquiring =
      (initState 0 1 1).acquiring ∧
    acquireRun (fun _ => false) 1 (initState 0 1 1) =
      ⟨AcqStatus.fillFailed, none, (fillFree (fun _ => false) 1 true (initState 0 1 1)).state⟩ :=
  ⟨(fill_failure_rollback (fun _ => false) 1 true (initState 0 1 1)).1,
   (fill_failure_rollback (fun _ => false) 1 true (initState 0 1 1)).2 (by decide)⟩

/-- C10: `select(db)` assigns the pool's db index exactly when every
free connection's own `select` succeeded (the `for ... else` clause);
on a failure the exception propagates with the old db index kept, the
connections before the failing index already switched in place and the
rest untouched; on an empty free list the db index is assigned with no
per-connection switch. -/
theorem select_db_assignment :
    ∀ (s : PoolState) (dbNew : Nat) (ok : Nat → Bool),
      ((selectRun s dbNew ok).1 = true ↔ ∀ j < s.pool.length, ok j = true) ∧
      ((selectRun s dbNew ok).1 = true → (selectRun s dbNew ok).2.db = dbNew) ∧
      ((selectRun s dbNew ok).1 = false → (selectRun s dbNew ok).2.db = s.db) ∧
      (s.pool = [] → selectRun s dbNew ok = (true, { s with db := dbNew })) ∧
      (∀ k, k < s.pool.length → ok k = false → (∀ j < k, ok j = true) →
        (selectRun s dbNew ok).2.pool =
          (s.pool.take k).map (fun c => { c with db := dbNew }) ++ s.pool.drop k) := by
  intro s dbNew ok
  refine ⟨?_, ?_, ?_, ?_, ?_⟩
  · rw [selectRun_fst, switchFree_true_iff]
    constructor
    · intro h j hj
      simpa using h j hj
    · intro h j hj
      simpa using h j hj
  · intro h
    rw [selectRun_fst] at h
    simp only [selectRun]
    rw [if_pos h]
  · intro h
    rw [selectRun_fst] at h
    simp only [selectRun]
    rw [if_neg (by simp [h])]
  · intro hp
    simp [selectRun, switchFree, hp]
  · intro k hk hf hpre
    rw [selectRun_pool,
      switchFree_firstFail dbNew ok s.pool 0 k hk (by simpa using hf)
        (by intro j hj; simpa using hpre j hj)]

theorem select_db_assignment_witness :
    ((selectRun (PoolState.mk [⟨0, 0, false, false⟩, ⟨1, 0, false, false⟩] [] 0 0 2 2 2)
        3 (fun i => i == 0)).1 = true ↔
      ∀ j < (PoolState.mk [⟨0, 0, false, false⟩, ⟨1, 0, false, false⟩] [] 0 0 2 2 2).pool.length,
        (fun i => i == 0) j = true) ∧
    ((selectRun (PoolState.mk [⟨0, 0, false, false⟩, ⟨1, 0, false, false⟩] [] 0 0 2 2 2)
        3 (fun i => i == 0)).1 = false →
      (selectRun (PoolState.mk [⟨0, 0, false, false⟩, ⟨1, 0, false, false⟩] [] 0 0 2 2 2)
        3 (fun i => i == 0)).2.db = 0) :=
  ⟨(select_db_assignment
      (PoolState.mk [⟨0, 0, false, false⟩, ⟨1, 0, false, false⟩] [] 0 0 2 2 2)
      3 (fun i => i == 0)).1,
   fun h => (select_db_assignment
      (PoolState.mk [⟨0, 0, false, false⟩, ⟨1, 0, false, false⟩] [] 0 0 2 2 2)
      3 (fun i => i == 0)).2.2.1 h⟩

/-- C1 (counterexample): after a successful initial fill on a pool with
minsize = maxsize = 1, one acquire followed by one release of the
connection while it is mid-transaction (so release closes it) leaves a
quiescent state (pending = 0) with freeCount + leasedCount + pending =
0 < minsize = 1, refuting the claimed lower bound. -/
theorem pool_min_invariant_cex :
    (fillFree (fun _ => true) 2 false (initState 0 1 1)).status = FillStatus.ok ∧
    (reach (initState 0 1 1)
      [Op.initFill 2 (fun _ => true), Op.acquire 1 (fun _ => true),
       Op.release 0 0 false true]).acquiring = 0 ∧
    poolSize (reach (initState 0 1 1)
      [Op.initFill 2 (fun _ => true), Op.acquire 1 (fun _ => true),
       Op.release 0 0 false true]) = 0 ∧
    (initState 0 1 1).minsize = 1 := by
  decide

/-- C1 (amended): for minsize ≤ maxsize, freeCount + leasedCount never
exceeds maxsize in any reachable state; and the lower bound
freeCount + leasedCount + pending ≥ minsize holds immediately after
every refill that returns normally (pool construction's fill and every
acquire that hands out a connection) — but not at every quiescent
point, since a release that closes its connection reduces size below
minsize until the next refill. -/
theorem pool_size_bounds_amended :
    (∀ (db m M : Nat) (ops : List Op), m ≤ M →
      freesize (reach (initState db m M) ops) +
        (reach (initState db m M) ops).used.length ≤ M) ∧
    (∀ (ok : Nat → Bool) (fuel : Nat) (ov : Bool) (s : PoolState),
      (fillFree ok fuel ov s).status = FillStatus.ok →
      s.minsize ≤ poolSize (fillFree ok fuel ov s).state) ∧
    (∀ (ok : Nat → Bool) (fuel : Nat) (s : PoolState),
      (acquireRun ok fuel s).status = AcqStatus.acquired →
      s.minsize ≤ poolSize (acquireRun ok fuel s).state) := by
  refine ⟨?_, ?_, ?_⟩
  · intro db m M ops hmm
    exact reach_bounded ops (initState db m M) hmm (by simp [initState, freesize])
  · intro ok fuel ov s h
    exact fillFree_ok_min ok fuel ov s h
  · intro ok fuel s h
    have hfill : (fillFree ok fuel true s).status = FillStatus.ok :=
      popLease_acquired_status (fillFree ok fuel true s) h
    have h1 := fillFree_ok_min ok fuel true s hfill
    have h2 := (popLease_size (fillFree ok fuel true s)).2 h
    simp only [acquireRun] at *
    rw [h2]
    exact h1

theorem pool_size_bounds_amended_witness :
    freesize (reach (initState 0 1 2)
        [Op.initFill 3 (fun _ => true), Op.acquire 1 (fun _ => true)]) +
      (reach (initState 0 1 2)
        [Op.initFill 3 (fun _ => true), Op.acquire 1 (fun _ => true)]).used.length ≤ 2 ∧
    (initState 0 1 2).minsize ≤
      poolSize (fillFree (fun _ => true) 3 false (initState 0 1 2)).state ∧
    (initState 0 1 2).minsize ≤
      poolSize (acquireRun (fun _ => true) 3 (initState 0 1 2)).state :=
  ⟨pool_size_bounds_amended.1 0 1 2
      [Op.initFill 3 (fun _ => true), Op.acquire 1 (fun _ => true)] (by decide),
   pool_size_bounds_amended.2.1 (fun _ => true) 3 false (initState 0 1 2) (by decide),
   pool_size_bounds_amended.2.2 (fun _ => true) 3 (initState 0 1 2) (by decide)⟩

/-- C4 (counterexample): with maxsize = 0 and minsize = 1, the
fill-to-minimum loop of `_fill_free` never terminates, however much
fuel it is given, even though every creation succeeds: each created
connection is immediately discarded by the zero-capacity deque and
size never increases, so the minimum is never reached. -/
theorem maxsize_zero_fill_cex :
    fillNeverCompletes (fun _ => true) (initState 0 1 0) := by
  intro fuel
  exact fillLoop_noFuel_maxzero (fun _ => true) (fun _ => rfl) fuel
    (initState 0 1 0) rfl (by decide)

/-- C4 (amended): maxsize = 0 does disable the top-up-by-one step
(`_fill_free` degenerates to its fill loop), but the fill-to-minimum
phase succeeds only when size is already at least minsize (in
particular when minsize = 0, where it returns at once leaving the state
unchanged); whenever size < minsize it loops forever, discarding every
connection it creates. -/
theorem maxsize_zero_fill_amended :
    (∀ (ok : Nat → Bool) (fuel : Nat) (ov : Bool) (s : PoolState), s.maxsize = 0 →
      fillFree ok fuel ov s = fillLoop ok fuel s) ∧
    (∀ (ok : Nat → Bool) (fuel : Nat) (s : PoolState), (∀ i, ok i = true) →
      s.maxsize = 0 → poolSize s < s.minsize →
      (fillLoop ok fuel s).status = FillStatus.noFuel) ∧
    (∀ (ok : Nat → Bool) (fuel : Nat) (ov : Bool) (s : PoolState), s.maxsize = 0 →
      s.minsize = 0 →
      (fillFree ok fuel ov s).status = FillStatus.ok ∧
      (fillFree ok fuel ov s).state = s) := by
  refine ⟨?_, ?_, ?_⟩
  · intro ok fuel ov s h
    exact fillFree_maxzero ok fuel ov s h
  · intro ok fuel s hall hM hlt
    exact fillLoop_noFuel_maxzero ok hall fuel s hM hlt
  · intro ok fuel ov s hM hm
    have hnl : ¬ poolSize s < s.minsize := by rw [hm]; omega
    rw [fillFree_maxzero ok fuel ov s hM, fillLoop_done ok fuel s hnl]
    exact ⟨rfl, rfl⟩

theorem maxsize_zero_fill_amended_witness :
    fillFree (fun _ => true) 4 true (initState 0 1 0) =
      fillLoop (fun _ => true) 4 (initState 0 1 0) ∧
    (fillLoop (fun _ => true) 4 (initState 0 1 0)).status = FillStatus.noFuel ∧
    (fillFree (fun _ => true) 2 false (initState 0 0 0)).status = FillStatus.ok ∧
    (fillFree (fun _ => true) 2 false (initState 0 0 0)).state = initState 0 0 0 :=
  ⟨maxsize_zero_fill_amended.1 (fun _ => true) 4 true (initState 0 1 0) rfl,
   maxsize_zero_fill_amended.2.1 (fun _ => true) 4 (initState 0 1 0)
     (fun _ => rfl) rfl (by decide),
   (maxsize_zero_fill_amended.2.2 (fun _ => true) 2 false (initState 0 0 0) rfl rfl).1,
   (maxsize_zero_fill_amended.2.2 (fun _ => true) 2 false (initState 0 0 0) rfl rfl).2⟩

/-- C5 (counterexample): with minsize = 2, maxsize = 1, the second
iteration of the fill loop appends to a full deque; the evicted oldest
connection (id 0) is silently discarded by the deque with its closed
flag still false — `close` is never called on it — refuting the claim
that overflow eviction closes the evicted connection. -/
theorem overflow_silent_discard_cex :
    (fillFree (fun _ => true) 2 false (initState 0 2 1)).dropped =
      [Conn.mk 0 0 false false] ∧
    (Conn.mk 0 0 false false).closed = false := by
  decide

/-- C5 (amended): the code never closes a deque-evicted connection;
instead, `release` avoids eviction altogether by closing the incoming
connection when the free list is at capacity (the free list is not
touched), and as long as minsize ≤ maxsize the refill path never
overflows the deque (no connection is ever silently discarded there).
Only in misconfigured pools with minsize > maxsize does `_fill_free`
overflow the deque and silently drop the oldest free connection
without closing it. -/
theorem overflow_close_amended :
    (∀ (s : PoolState) (id : Nat) (s' : PoolState) (acts : List Act),
      ¬(s.maxsize ≠ 0 ∧ freesize s < s.maxsize) →
      releaseRun s id s.db false false = some (s', acts) →
      acts = [Act.removeUsed id, Act.closeConn id, Act.scheduleWakeup none] ∧
        s'.pool = s.pool) ∧
    (∀ (ok : Nat → Bool) (fuel : Nat) (ov : Bool) (s : PoolState),
      s.minsize ≤ s.maxsize → (fillFree ok fuel ov s).dropped = []) := by
  refine ⟨?_, ?_⟩
  · intro s id s' acts hguard h
    obtain ⟨hmem, hused, _, _, _, _, _, mid, hacts, hcase⟩ := releaseRun_shape h
    rcases hcase with ⟨_, _, hcl⟩ | ⟨hmid, hpool⟩ | ⟨_, _, hm0, hfs, _, _, _⟩
    · exact absurd hcl (by simp)
    · subst hmid
      subst hacts
      exact ⟨rfl, hpool⟩
    · exact absurd ⟨hm0, hfs⟩ hguard
  · intro ok fuel ov s hmm
    exact fillFree_dropped_nil ok fuel ov s hmm

theorem overflow_close_amended_witness :
    ([Act.removeUsed 1, Act.closeConn 1, Act.scheduleWakeup none] =
      [Act.removeUsed 1, Act.closeConn 1, Act.scheduleWakeup none] ∧
     (PoolState.mk [⟨0, 0, false, false⟩] [] 0 0 1 1 2).pool =
      (PoolState.mk [⟨0, 0, false, false⟩] [1] 0 0 1 1 2).pool) ∧
    (fillFree (fun _ => true) 2 false (initState 0 1 1)).dropped = [] :=
  ⟨overflow_close_amended.1 (PoolState.mk [⟨0, 0, false, false⟩] [1] 0 0 1 1 2) 1
      (PoolState.mk [⟨0, 0, false, false⟩] [] 0 0 1 1 2)
      [Act.removeUsed 1, Act.closeConn 1, Act.scheduleWakeup none]
      (by decide) (by decide),
   overflow_close_amended.2 (fun _ => true) 2 false (initState 0 1 1) (by decide)⟩

/-- C6 (counterexample): a release that closes its connection (here:
mid-transaction) schedules the wakeup task with no argument
(`asyncio.async(self._wakeup())`), and the run of `_wakeup` with no
argument never invokes `wait_closed` on the closed connection — the
background work does not wait for the close to complete. -/
theorem release_close_no_wait_cex :
    releaseRun (PoolState.mk [] [5] 0 0 1 1 6) 5 0 false true =
      some (PoolState.mk [] [] 0 0 1 1 6,
        [Act.removeUsed 5, Act.closeConn 5, Act.scheduleWakeup none]) ∧
    Act.waitClosed 5 ∉ wakeupRun none := by
  decide

/-- C6 (amended): every successful release schedules exactly one wakeup
task and always passes it no closing connection; the scheduled run
notifies one waiter and waits for no close — `_wakeup` only awaits
`wait_closed` when it is given a closing connection, which `release`
never supplies. -/
theorem release_wakeup_amended :
    ∀ (s : PoolState) (id dbc : Nat) (closedc inTx : Bool)
      (s' : PoolState) (acts : List Act),
      releaseRun s id dbc closedc inTx = some (s', acts) →
      Act.scheduleWakeup none ∈ acts ∧
      (∀ a : Option Nat, Act.scheduleWakeup a ∈ acts → a = none) ∧
      Act.notifyWaiter ∈ wakeupRun none ∧
      (∀ j : Nat, Act.waitClosed j ∉ wakeupRun none) ∧
      (∀ j : Nat, Act.waitClosed j ∈ wakeupRun (some j)) := by
  intro s id dbc closedc inTx s' acts h
  obtain ⟨_, _, _, _, _, _, _, mid, hacts, hcase⟩ := releaseRun_shape h
  have hmid : mid = [] ∨ mid = [Act.closeConn id] ∨ mid = [Act.appendFree id] := by
    rcases hcase with ⟨h1, _, _⟩ | ⟨h1, _⟩ | ⟨h1, _, _, _, _, _, _⟩
    · exact Or.inl h1
    · exact Or.inr (Or.inl h1)
    · exact Or.inr (Or.inr h1)
  subst hacts
  refine ⟨by simp, ?_, by simp [wakeupRun], by intro j; simp [wakeupRun],
    by intro j; simp [wakeupRun]⟩
  intro a ha
  rcases hmid with rfl | rfl | rfl <;> simpa using ha

theorem release_wakeup_amended_witness :
    Act.scheduleWakeup none ∈
      [Act.removeUsed 7, Act.closeConn 7, Act.scheduleWakeup none] ∧
    (∀ a : Option Nat,
      Act.scheduleWakeup a ∈ [Act.removeUsed 7, Act.closeConn 7, Act.scheduleWakeup none] →
      a = none) ∧
    Act.notifyWaiter ∈ wakeupRun none ∧
    (∀ j : Nat, Act.waitClosed j ∉ wakeupRun none) ∧
    (∀ j : Nat, Act.waitClosed j ∈ wakeupRun (some j)) :=
  release_wakeup_amended (PoolState.mk [] [7] 0 0 1 1 8) 7 0 false true
    (PoolState.mk [] [] 0 0 1 1 8)
    [Act.removeUsed 7, Act.closeConn 7, Act.scheduleWakeup none] (by decide)

/-- C8: after a `select(newDb)` in which every per-connection switch
succeeds, the pool's db index is newDb, every free connection was
switched in place to newDb, every connection handed out by subsequent
acquires and releases (with no further select) reports db = newDb —
newly created connections are created with the pool's current db — and
a release whose connection's db mismatches the pool's closes the
connection instead of returning it to the free list. -/
theorem select_then_acquire_db :
    ∀ (s : PoolState) (dbNew : Nat) (ops : List Op),
      PoolInv s → (∀ op ∈ ops, Op.notSelect op) →
      (selectRun s dbNew (fun _ => true)).1 = true ∧
      (selectRun s dbNew (fun _ => true)).2.db = dbNew ∧
      (∀ c ∈ (selectRun s dbNew (fun _ => true)).2.pool, c.db = dbNew) ∧
      (∀ c ∈ acquiredConns (selectRun s dbNew (fun _ => true)).2 ops, c.db = dbNew) ∧
      (∀ (t : PoolState) (id dbc : Nat) (tx : Bool) (t' : PoolState) (acts : List Act),
        dbc ≠ t.db → releaseRun t id dbc false tx = some (t', acts) →
        Act.closeConn id ∈ acts ∧ t'.pool = t.pool) := by
  intro s dbNew ops hinv hns
  have hsel := selectRun_allOk s dbNew
  have hfst : (selectRun s dbNew (fun _ => true)).1 = true := by rw [hsel]
  have hs1db : (selectRun s dbNew (fun _ => true)).2.db = dbNew := by rw [hsel]
  have hs1pool : (selectRun s dbNew (fun _ => true)).2.pool =
      s.pool.map (fun c => { c with db := dbNew }) := by rw [hsel]
  have hGoodPool : ∀ c ∈ (selectRun s dbNew (fun _ => true)).2.pool, c.db = dbNew := by
    rw [hs1pool]
    intro c hc
    rcases List.mem_map.mp hc with ⟨a, ha, rfl⟩
    rfl
  have hInv1 : PoolInv (selectRun s dbNew (fun _ => true)).2 :=
    selectRun_inv s dbNew (fun _ => true) hinv
  refine ⟨hfst, hs1db, hGoodPool, ?_, ?_⟩
  · exact acquiredConns_db dbNew ops _ hInv1 ⟨hs1db, hGoodPool⟩ hns
  · intro t id dbc tx t' acts hdb hrel
    obtain ⟨hacts, hpool⟩ := releaseRun_mismatch hdb hrel
    exact ⟨by rw [hacts]; simp, hpool⟩

theorem select_then_acquire_db_witness :
    (selectRun (PoolState.mk [⟨0, 0, false, false⟩] [1] 0 0 1 2 2) 3 (fun _ => true)).1 =
      true ∧
    (selectRun (PoolState.mk [⟨0, 0, false, false⟩] [1] 0 0 1 2 2) 3 (fun _ => true)).2.db =
      3 ∧
    (∀ c ∈ (selectRun (PoolState.mk [⟨0, 0, false, false⟩] [1] 0 0 1 2 2) 3
        (fun _ => true)).2.pool, c.db = 3) ∧
    (∀ c ∈ acquiredConns
        (selectRun (PoolState.mk [⟨0, 0, false, false⟩] [1] 0 0 1 2 2) 3
          (fun _ => true)).2 [Op.acquire 1 (fun _ => true)], c.db = 3) ∧
    (∀ (t : PoolState) (id dbc : Nat) (tx : Bool) (t' : PoolState) (acts : List Act),
      dbc ≠ t.db → releaseRun t id dbc false tx = some (t', acts) →
      Act.closeConn id ∈ acts ∧ t'.pool = t.pool) :=
  select_then_acquire_db (PoolState.mk [⟨0, 0, false, false⟩] [1] 0 0 1 2 2) 3
    [Op.acquire 1 (fun _ => true)] (by unfold PoolInv; decide)
    (by
      intro op hop
      rw [List.mem_singleton] at hop
      subst hop
      exact trivial)

/-- C9 (counterexample): a successful release's own (synchronous)
action list contains the bookkeeping and the scheduling of the wakeup
task but no notify: the notify of a waiter is not issued before
release returns, it happens only when the scheduled `_wakeup` task
runs. -/
theorem release_notify_deferred_cex :
    releaseRun (PoolState.mk [] [3] 0 0 0 1 4) 3 0 false false =
      some (PoolState.mk [⟨3, 0, false, false⟩] [] 0 0 0 1 4,
        [Act.removeUsed 3, Act.appendFree 3, Act.scheduleWakeup none]) ∧
    Act.notifyWaiter ∉
      [Act.removeUsed 3, Act.appendFree 3, Act.scheduleWakeup none] := by
  decide

/-- C9 (amended): every successful release completes its core
bookkeeping — removal from the leased set first, then the
recycle-or-close decision — and schedules the wakeup task as its last
action before returning; the notify itself is not among release's own
actions and is issued by the scheduled `_wakeup` run afterwards. -/
theorem release_bookkeeping_amended :
    ∀ (s : PoolState) (id dbc : Nat) (closedc inTx : Bool)
      (s' : PoolState) (acts : List Act),
      releaseRun s id dbc closedc inTx = some (s', acts) →
      s'.used = s.used.erase id ∧
      acts.head? = some (Act.removeUsed id) ∧
      acts.getLast? = some (Act.scheduleWakeup none) ∧
      Act.notifyWaiter ∉ acts ∧
      Act.notifyWaiter ∈ wakeupRun none := by
  intro s id dbc closedc inTx s' acts h
  obtain ⟨_, hused, _, _, _, _, _, mid, hacts, hcase⟩ := releaseRun_shape h
  have hmid : mid = [] ∨ mid = [Act.closeConn id] ∨ mid = [Act.appendFree id] := by
    rcases hcase with ⟨h1, _, _⟩ | ⟨h1, _⟩ | ⟨h1, _, _, _, _, _, _⟩
    · exact Or.inl h1
    · exact Or.inr (Or.inl h1)
    · exact Or.inr (Or.inr h1)
  subst hacts
  refine ⟨hused, rfl, ?_, ?_, by simp [wakeupRun]⟩
  · show (Act.removeUsed id :: (mid ++ [Act.scheduleWakeup none])).getLast? =
      some (Act.scheduleWakeup none)
    rw [show Act.removeUsed id :: (mid ++ [Act.scheduleWakeup none]) =
        (Act.removeUsed id :: mid) ++ [Act.scheduleWakeup none] from rfl]
    exact List.getLast?_concat _
  · rcases hmid with rfl | rfl | rfl <;> simp

theorem release_bookkeeping_amended_witness :
    (PoolState.mk [⟨9, 2, false, false⟩] [] 0 2 0 1 10).used =
      (PoolState.mk [] [9] 0 2 0 1 10).used.erase 9 ∧
    ([Act.removeUsed 9, Act.appendFree 9, Act.scheduleWakeup none].head? =
      some (Act.removeUsed 9)) ∧
    ([Act.removeUsed 9, Act.appendFree 9, Act.scheduleWakeup none].getLast? =
      some (Act.scheduleWakeup none)) ∧
    Act.notifyWaiter ∉ [Act.removeUsed 9, Act.appendFree 9, Act.scheduleWakeup none] ∧
    Act.notifyWaiter ∈ wakeupRun none :=
  release_bookkeeping_amended (PoolState.mk [] [9] 0 2 0 1 10) 9 2 false false
    (PoolState.mk [⟨9, 2, false, false⟩] [] 0 2 0 1 10)
    [Act.removeUsed 9, Act.appendFree 9, Act.scheduleWakeup none] (by decide)
